import Mathlib

/-!
Verification development for the task coordination and message routing core
of the gridiron repository.  The Rust sources are shallowly embedded:

* `src/message/util.rs`   : byte-stream helpers (blocking and non-blocking
  little-endian reads) over an explicit model of a readable stream;
* `src/message/tcp.rs`    : the wire framing written by the connection-pool
  sender thread, the reader `ConnectionPool::poll`, and the stamp-filtering
  receive loop of `TcpCommunicator::recv`;
* `src/thread_pool.rs`    : worker construction and the round-robin
  `spawn_on` dispatch, including its panicking edge cases;
* `src/automaton.rs`      : the `coordinate` function, embedded as a state
  machine over association lists that also records an event trace
  (receive / sink / remote-send events) so that delivery ordering and
  counting properties can be stated.
-/

namespace Gridiron

/-! ## Byte-stream utilities (src/message/util.rs)

A readable stream is modelled as the list of byte chunks returned by
successive calls to `Read::read`: each chunk is what one `read` call yields
(an empty chunk models a read that returns zero bytes).  A `read` call with
a buffer of `n` remaining bytes consumes at most `n` bytes of the head
chunk; the unread remainder of the chunk stays at the front of the stream.
-/

/-- Bytes of a stream model, in order, ignoring the chunk boundaries. -/
def streamBytes (cs : List (List Nat)) : List Nat :=
  cs.flatten

/-- Embeds `read_bytes_into` (util.rs lines 57-62): repeatedly read until
`n` bytes are gathered.  Returns `none` when the stream runs out of read
results, which models the loop blocking forever. -/
def read_bytes_into : Nat → List (List Nat) → Option (List Nat × List (List Nat))
  | 0, cs => some ([], cs)
  | _ + 1, [] => none
  | n + 1, c :: cs =>
    if n + 1 < c.length then
      some (c.take (n + 1), c.drop (n + 1) :: cs)
    else
      match read_bytes_into (n + 1 - c.length) cs with
      | some (bs, rest) => some (c ++ bs, rest)
      | none => none

/-- Embeds `read_bytes_into_non_blocking` (util.rs lines 67-75).  The first
read attempt either yields zero bytes, in which case the function returns
`none` without consuming anything (`absent`), or commits, after which the
remaining bytes are read with the blocking loop (`got`); `blocked` marks a
committed read that never completes because the stream has no further
read results. -/
inductive NBRead (α : Type) where
  | absent (rest : List (List Nat))
  | got (v : α) (rest : List (List Nat))
  | blocked
  deriving DecidableEq, Repr

/-- The committed path of `read_bytes_into_non_blocking`: the first read
returned `k > 0` bytes and the remaining `n - k` are read blockingly. -/
def read_bytes_into_non_blocking (n : Nat) : List (List Nat) → NBRead (List Nat)
  | [] => .absent []
  | c :: rest =>
    if c.length = 0 ∨ n = 0 then .absent (c :: rest)
    else
      match read_bytes_into (n - min n c.length)
          (if c.length ≤ n then rest else c.drop n :: rest) with
      | some (bs, rest2) => .got (c.take n ++ bs) rest2
      | none => .blocked

/-- Little-endian value of a byte list, as `usize::from_le_bytes` computes
it on 8 bytes. -/
def fromLE : List Nat → Nat
  | [] => 0
  | b :: bs => b % 256 + 256 * fromLE bs

/-- Little-endian encoding on `w` bytes, as `usize::to_le_bytes` produces
for `w = 8`. -/
def toLE : Nat → Nat → List Nat
  | 0, _ => []
  | w + 1, n => n % 256 :: toLE w (n / 256)

/-- Embeds `read_usize` (util.rs lines 15-17) on a flat byte list: read 8
bytes and interpret them little-endian.  `none` models the blocking loop
never completing on a truncated stream. -/
def read_usize (bytes : List Nat) : Option (Nat × List Nat) :=
  if 8 ≤ bytes.length then some (fromLE (bytes.take 8), bytes.drop 8) else none

/-- Embeds `read_usize_non_blocking` (util.rs lines 21-23) on the chunked
stream model. -/
def read_usize_non_blocking (cs : List (List Nat)) : NBRead Nat :=
  match read_bytes_into_non_blocking 8 cs with
  | .absent r => .absent r
  | .got bs r => .got (fromLE bs) r
  | .blocked => .blocked

/-! ## TCP wire framing (src/message/tcp.rs)

The sender thread of `ConnectionPool::from_listener` (lines 58-68) writes,
for each `(address, message, tag)` tuple, the message length as 8 bytes
little-endian, then the tag as 8 bytes little-endian, then the message
bytes.  `ConnectionPool::poll` (lines 41-46) parses one such record.  For
the framing round trip the stream is taken flat (all written bytes
available in order). -/

/-- The bytes the sender thread writes for one `(message, tag)` record. -/
def writeRecord (message : List Nat) (tag : Nat) : List Nat :=
  toLE 8 message.length ++ toLE 8 tag ++ message

/-- The bytes the sender thread writes for a sequence of records to one
destination. -/
def writeRecords (rs : List (List Nat × Nat)) : List Nat :=
  rs.flatMap (fun r => writeRecord r.1 r.2)

/-- Embeds `ConnectionPool::poll` on a flat byte list: a non-blocking
usize read of the length, then a blocking usize read of the tag and a
blocking read of the payload.  Returns the `(payload, tag)` pair and the
unconsumed rest.  On this flat model a first read finding no bytes and a
blocking read stuck on a truncated stream both come out as `none`. -/
def poll (bytes : List Nat) : Option ((List Nat × Nat) × List Nat) :=
  match read_usize bytes with
  | none => none
  | some (len, rest1) =>
    match read_usize rest1 with
    | none => none
    | some (tag, rest2) =>
      if len ≤ rest2.length then some ((rest2.take len, tag), rest2.drop len)
      else none

/-- Repeatedly parse records with `poll`, stopping at the first `none`.
The fuel argument bounds the number of records parsed. -/
def pollRecords : Nat → List Nat → List (List Nat × Nat) × List Nat
  | 0, bytes => ([], bytes)
  | fuel + 1, bytes =>
    match poll bytes with
    | none => ([], bytes)
    | some (r, rest) =>
      let (rs, leftover) := pollRecords fuel rest
      (r :: rs, leftover)

/-! ## TcpCommunicator receive filtering (src/message/tcp.rs lines 120-179)

The communicator state carries the parked `undelivered` entries, the
current `time_stamp`, and the (ordered) pending `(payload, tag)` pairs the
connection pool will hand out on successive `ConnectionPool::recv` calls. -/

structure TcpComm where
  undelivered : List (List Nat × Nat)
  time_stamp : Nat
  pool : List (List Nat × Nat)
  deriving DecidableEq, Repr

/-- Embeds the `Some(index)` branch of `TcpCommunicator::recv`: find the
first parked entry whose tag equals the stamp, remove it, return its
payload. -/
def scanUndelivered (stamp : Nat) : List (List Nat × Nat) → Option (List Nat × List (List Nat × Nat))
  | [] => none
  | (msg, tag) :: rest =>
    if tag = stamp then some (msg, rest)
    else
      match scanUndelivered stamp rest with
      | some (m, rest1) => some (m, (msg, tag) :: rest1)
      | none => none

/-- Embeds the `None => loop` branch of `TcpCommunicator::recv`: pull
`(payload, tag)` pairs from the pool, parking mismatching ones, until one
matches the stamp.  Returns the payload, the parked list, and the rest of
the pool; `none` models the loop blocking with no matching message. -/
def pullMatching (stamp : Nat) (parked : List (List Nat × Nat)) :
    List (List Nat × Nat) → Option (List Nat × List (List Nat × Nat) × List (List Nat × Nat))
  | [] => none
  | (msg, tag) :: rest =>
    if tag ≠ stamp then pullMatching stamp (parked ++ [(msg, tag)]) rest
    else some (msg, parked, rest)

/-- Embeds `TcpCommunicator::recv` (tcp.rs lines 157-174). -/
def tcp_recv (c : TcpComm) : Option (List Nat × TcpComm) :=
  match scanUndelivered c.time_stamp c.undelivered with
  | some (msg, und) => some (msg, { c with undelivered := und })
  | none =>
    match pullMatching c.time_stamp c.undelivered c.pool with
    | some (msg, und, pool) => some (msg, { c with undelivered := und, pool := pool })
    | none => none

/-- Embeds `TcpCommunicator::next_time_stamp` (tcp.rs lines 176-178). -/
def tcp_next_time_stamp (c : TcpComm) : TcpComm :=
  { c with time_stamp := c.time_stamp + 1 }

/-! ## Thread pool (src/thread_pool.rs)

Workers carry no interesting state for the dispatch claims; the pool is
its worker count plus the round-robin cell.  Dispatching returns the index
of the worker whose channel receives the job. -/

structure ThreadPool where
  num_threads : Nat
  current_worker_id : Nat
  deriving DecidableEq, Repr

/-- Worker list of the `cfg(not(feature = core_affinity))` variant of
`ThreadPool::make_workers` (lines 110-126): one worker per requested
thread, regardless of the machine. -/
def make_workers_plain (num_threads : Nat) : List Unit :=
  (List.range num_threads).map (fun _ => ())

/-- Worker list of the `cfg(feature = core_affinity)` variant of
`ThreadPool::make_workers` (lines 87-108): `get_core_ids()` yields one id
per CPU core and `take num_threads` keeps at most the requested number. -/
def make_workers_affinity (core_ids : List Nat) (num_threads : Nat) : List Nat :=
  core_ids.take num_threads

/-- The ways `ThreadPool::spawn_on` can panic. -/
inductive SpawnFault where
  | indexOutOfBounds
  | remainderZero
  deriving DecidableEq, Repr

/-- Embeds `ThreadPool::spawn_on` (lines 55-73), with the panics made
explicit: in the `None` branch the round-robin advance computes
`(current + 1) % num_threads`, which panics when the pool has zero
workers; indexing `workers[worker_id]` panics when the id is out of
bounds.  On success, returns the dispatched worker id and the new pool
state. -/
def spawn_on (p : ThreadPool) (hint : Option Nat) : Except SpawnFault (Nat × ThreadPool) :=
  match hint with
  | some i =>
    if i < p.num_threads then .ok (i, p) else .error .indexOutOfBounds
  | none =>
    if p.num_threads = 0 then .error .remainderZero
    else
      let w := p.current_worker_id
      let p1 := { p with current_worker_id := (w + 1) % p.num_threads }
      if w < p.num_threads then .ok (w, p1) else .error .indexOutOfBounds

/-- The worker ids dispatched by `j` successive hint-free spawns
(`ThreadPool::spawn`), for a pool with at least one worker. -/
def spawnSeq (n : Nat) (c : Nat) : Nat → List Nat
  | 0 => []
  | j + 1 => c :: spawnSeq n ((c + 1) % n) j

/-! ## The coordinator (src/automaton.rs, function coordinate)

An `Automaton` implementation is a record of the trait methods over an
abstract task type `A`; `receive` returns the mutated task together with
the eligibility bit of the returned `Status`.  The coordinator state holds
the two hash maps of `coordinate` as association lists, plus two ghost
components: an event trace recording each `receive` call, each hand-off to
the sink, and each remote send, and the list of messages dropped by the
short-circuiting `any` on line 288 (messages parked for a task that
reported `Eligible` before consuming all of them). -/

structure AutomatonImpl (A K M : Type) where
  key : A → K
  messages : A → List (K × M)
  receive : A → M → A × Bool
  independent : A → Bool

inductive Event (K M : Type) where
  | recv (k : K) (m : M)
  | sink (k : K)
  | send (rank : Nat) (k : K) (m : M)
  deriving DecidableEq, Repr

structure CoordState (A K M : Type) where
  seen : List (K × A)
  undelivered : List (K × List M)
  trace : List (Event K M)
  dropped : List (K × M)

/-- `HashMap` lookup on the association-list model. -/
def lookupA {K A : Type} [DecidableEq K] : List (K × A) → K → Option A
  | [], _ => none
  | (k1, v) :: rest, k => if k1 = k then some v else lookupA rest k

/-- `Entry::remove` on the association-list model. -/
def removeA {K A : Type} [DecidableEq K] : List (K × A) → K → List (K × A)
  | [], _ => []
  | (k1, v) :: rest, k => if k1 = k then rest else (k1, v) :: removeA rest k

/-- Writing through an occupied entry (`entry.get_mut()` mutating the
stored task in place). -/
def updateA {K A : Type} [DecidableEq K] : List (K × A) → K → A → List (K × A)
  | [], _, _ => []
  | (k1, v) :: rest, k, a => if k1 = k then (k1, a) :: rest else (k1, v) :: updateA rest k a

/-- `HashMap::insert` on the association-list model: replace the entry if
the key is present, append otherwise. -/
def insertA {K A : Type} [DecidableEq K] : List (K × A) → K → A → List (K × A)
  | [], k, a => [(k, a)]
  | (k1, v) :: rest, k, a => if k1 = k then (k1, a) :: rest else (k1, v) :: insertA rest k a

/-- `undelivered.entry(dest).or_insert_with(Vec::new).push(data)`
(automaton.rs lines 270-275). -/
def pushUnd {K M : Type} [DecidableEq K] : List (K × List M) → K → M → List (K × List M)
  | [], k, m => [(k, [m])]
  | (k1, ms) :: rest, k, m =>
    if k1 = k then (k1, ms ++ [m]) :: rest else (k1, ms) :: pushUnd rest k m

/-- `undelivered.remove_entry(key)` (automaton.rs line 286). -/
def removeEntry {K M : Type} [DecidableEq K] : List (K × List M) → K → Option (List M × List (K × List M))
  | [], _ => none
  | (k1, ms) :: rest, k =>
    if k1 = k then some (ms, rest)
    else
      match removeEntry rest k with
      | some (found, rest1) => some (found, (k1, ms) :: rest1)
      | none => none

/-- Embeds delivery of one message to the task stored in `seen` under
`dest` (the `Entry::Occupied` arm, automaton.rs lines 265-269 and
303-307): call `receive` on the stored task; if it reports `Eligible`,
remove it from `seen` and hand it to the sink, otherwise store the
mutated task back. -/
def deliverSeen {A K M : Type} [DecidableEq K] (impl : AutomatonImpl A K M)
    (st : CoordState A K M) (dest : K) (data : M) (a : A) : CoordState A K M :=
  if (impl.receive a data).2 then
    { st with seen := removeA st.seen dest,
              trace := st.trace ++ [Event.recv dest data, Event.sink dest] }
  else
    { st with seen := updateA st.seen dest (impl.receive a data).1,
              trace := st.trace ++ [Event.recv dest data] }

/-- Embeds the routing of one outgoing `(dest, data)` pair of the current
task (automaton.rs lines 262-280). -/
def routeMsg {A K M : Type} [DecidableEq K] (impl : AutomatonImpl A K M) (rank : Nat)
    (work : K → Nat) (st : CoordState A K M) (dm : K × M) : CoordState A K M :=
  if work dm.1 = rank then
    match lookupA st.seen dm.1 with
    | some a => deliverSeen impl st dm.1 dm.2 a
    | none =>
      { st with undelivered := pushUnd st.undelivered dm.1 dm.2 }
  else
    { st with trace := st.trace ++ [Event.send (work dm.1) dm.1 dm.2] }

/-- Result of delivering a parked message list to the current task with
the short-circuiting `messages.into_iter().any(|m| a.receive(m).is_eligible())`
of automaton.rs line 288: `delivered` are the messages actually passed to
`receive` (in order), `remaining` are the messages discarded once a
`receive` returned `Eligible`. -/
structure ParkedResult (A M : Type) where
  task : A
  eligible : Bool
  delivered : List M
  remaining : List M

def deliverParked {A K M : Type} (impl : AutomatonImpl A K M) (a : A) :
    List M → ParkedResult A M
  | [] => ⟨a, false, [], []⟩
  | m :: ms =>
    let r := impl.receive a m
    if r.2 then ⟨r.1, true, [m], ms⟩
    else
      let p := deliverParked impl r.1 ms
      ⟨p.task, p.eligible, m :: p.delivered, p.remaining⟩

/-- Embeds the body of the `for mut a in flow` loop (automaton.rs lines
255-296): route the messages of `a`, deliver any parked messages to `a`,
then either sink `a` or insert it into `seen`. -/
def processTask {A K M : Type} [DecidableEq K] (impl : AutomatonImpl A K M) (rank : Nat)
    (work : K → Nat) (st : CoordState A K M) (a : A) : CoordState A K M :=
  let st1 := (impl.messages a).foldl (routeMsg impl rank work) st
  match removeEntry st1.undelivered (impl.key a) with
  | none =>
    if impl.independent a then
      { st1 with trace := st1.trace ++ [Event.sink (impl.key a)] }
    else
      { st1 with seen := insertA st1.seen (impl.key a) a }
  | some (ms, und1) =>
    let p := deliverParked impl a ms
    let st2 := { st1 with
      undelivered := und1,
      trace := st1.trace ++ p.delivered.map (Event.recv (impl.key a)),
      dropped := st1.dropped ++ p.remaining.map (Prod.mk (impl.key a)) }
    if p.eligible || impl.independent p.task then
      { st2 with trace := st2.trace ++ [Event.sink (impl.key p.task)] }
    else
      { st2 with seen := insertA st2.seen (impl.key p.task) p.task }

/-- Outcome of a coordination stage: `ok` is normal termination,
`assertFailed` is the `assert!(undelivered.is_empty())` on line 297 firing,
`unknownKey` is the panic on lines 308-313 for a message whose key is not
in `seen`, and `starved` marks the drain loop blocking on `comm.recv()`
with no further incoming message. -/
inductive Outcome where
  | ok
  | assertFailed
  | unknownKey
  | starved
  deriving DecidableEq, Repr

/-- Embeds the drain loop (automaton.rs lines 300-314): while `seen` is
non-empty, take the next decoded `(dest, data)` incoming message and
deliver it to the task stored under `dest`, sinking it if it became
eligible; panic if `dest` is not present.  Returns the outcome, the final
state, and the unconsumed incoming messages. -/
def drain {A K M : Type} [DecidableEq K] (impl : AutomatonImpl A K M) (st : CoordState A K M) :
    List (K × M) → Outcome × CoordState A K M × List (K × M)
  | [] => if st.seen.isEmpty then (.ok, st, []) else (.starved, st, [])
  | (dest, data) :: rest =>
    if st.seen.isEmpty then (.ok, st, (dest, data) :: rest)
    else
      match lookupA st.seen dest with
      | some a => drain impl (deliverSeen impl st dest data a) rest
      | none => (.unknownKey, st, rest)

/-- Embeds `coordinate` (automaton.rs lines 237-316).  The `incoming` list
holds the already-decoded `(dest, data)` pairs that successive
`code.decode(&comm.recv())` calls would produce during the drain phase. -/
def coordinate {A K M : Type} [DecidableEq K] (impl : AutomatonImpl A K M) (rank : Nat)
    (work : K → Nat) (flow : List A) (incoming : List (K × M)) :
    Outcome × CoordState A K M × List (K × M) :=
  let st := flow.foldl (processTask impl rank work) ⟨[], [], [], []⟩
  if st.undelivered.isEmpty then drain impl st incoming
  else (.assertFailed, st, incoming)

/-- The locally-addressed messages produced by `messages()` over a flow,
in production order: exactly the pairs routed through the
`work(dest) == comm.rank()` branch. -/
def producedLocal {A K M : Type} (impl : AutomatonImpl A K M) (rank : Nat)
    (work : K → Nat) (flow : List A) : List (K × M) :=
  (flow.flatMap impl.messages).filter (fun dm => decide (work dm.1 = rank))

/-! ## Trace predicates and counting for the coordinator claims -/

/-- Keys of the sink events of a trace, in order. -/
def sinkKeys {K M : Type} : List (Event K M) → List K
  | [] => []
  | Event.sink k :: rest => k :: sinkKeys rest
  | _ :: rest => sinkKeys rest

/-- Given the keys already sunk, checks that no receive event in the
trace targets a key that was sunk earlier: a receive call never follows
the hand-off of its task to the sink. -/
def noLateRecv {K M : Type} [DecidableEq K] : List K → List (Event K M) → Bool
  | _, [] => true
  | sunk, Event.recv k _ :: rest => decide (k ∉ sunk) && noLateRecv sunk rest
  | sunk, Event.sink k :: rest => noLateRecv (sunk ++ [k]) rest
  | sunk, Event.send _ _ _ :: rest => noLateRecv sunk rest

/-- The `(key, message)` pairs of the receive events of a trace, in
order: one entry per `receive` call the coordinator made. -/
def recvPairs {K M : Type} : List (Event K M) → List (K × M)
  | [] => []
  | Event.recv k m :: rest => (k, m) :: recvPairs rest
  | _ :: rest => recvPairs rest

/-- Number of occurrences of the pair `(k, m)` in a message list. -/
def countPair {K M : Type} [DecidableEq K] [DecidableEq M]
    (l : List (K × M)) (k : K) (m : M) : Nat :=
  l.countP (fun p => decide (p = (k, m)))

/-- Number of receive events for key `k` with message `m` in a trace. -/
def countRecv {K M : Type} [DecidableEq K] [DecidableEq M]
    (t : List (Event K M)) (k : K) (m : M) : Nat :=
  countPair (recvPairs t) k m

/-- The pairs stored in the `undelivered` map, flattened. -/
def undFlat {K M : Type} (und : List (K × List M)) : List (K × M) :=
  und.flatMap (fun e => e.2.map (Prod.mk e.1))

/-- Keys of the `seen` map, in insertion order. -/
def seenKeys {K A : Type} (seen : List (K × A)) : List K :=
  seen.map Prod.fst

/-- Conserved quantity of the coordinator: receive events in the trace
plus messages parked in `undelivered` plus messages dropped by the
short-circuiting parked delivery, counted at the pair `(k, m)`. -/
def phiCount {A K M : Type} [DecidableEq K] [DecidableEq M]
    (st : CoordState A K M) (k : K) (m : M) : Nat :=
  countRecv st.trace k m + countPair (undFlat st.undelivered) k m +
    countPair st.dropped k m

/-- Run invariant of the coordinator, relative to the keys `done` of the
tasks drawn from the flow so far: the trace never receives into a key
already sunk, the `seen` keys are distinct, the sunk keys and the `seen`
keys together are exactly the processed keys, and no `seen` key has been
sunk. -/
structure CoordInv {A K M : Type} [DecidableEq K]
    (done : List K) (st : CoordState A K M) : Prop where
  nlr : noLateRecv [] st.trace = true
  nodupSeen : (seenKeys st.seen).Nodup
  perm : (sinkKeys st.trace ++ seenKeys st.seen).Perm done
  notSunk : ∀ k ∈ seenKeys st.seen, k ∉ sinkKeys st.trace

/-- A concrete task group over `Nat`: task 1 is independent and sends the
two messages 7 and 8 to task 0; any `receive` reports `Eligible` at
once. -/
def implTwoToOne : AutomatonImpl Nat Nat Nat where
  key := fun a => a
  messages := fun a => if a = 1 then [(0, 7), (0, 8)] else []
  receive := fun a _ => (a, true)
  independent := fun a => a = 1

/-- A concrete task group over `Nat`: every task is independent, task 1
sends the message 7 to task 0, and `receive` never reports eligible. -/
def implIndepTarget : AutomatonImpl Nat Nat Nat where
  key := fun a => a
  messages := fun a => if a = 1 then [(0, 7)] else []
  receive := fun a _ => (a, false)
  independent := fun _ => true

/-! ## Thread pool lemmas and theorems (claims C7, C8, C10) -/

theorem spawnSeq_eq_map (n : Nat) (hn : 0 < n) :
    ∀ (j c : Nat), c < n → spawnSeq n c j = (List.range j).map (fun t => (c + t) % n) := by
  intro j
  induction j with
  | zero => intro c _; simp [spawnSeq]
  | succ j ih =>
    intro c hc
    rw [spawnSeq, List.range_succ_eq_map, List.map_cons,
        ih ((c + 1) % n) (Nat.mod_lt _ hn), List.map_map]
    refine congrArg₂ List.cons (by simp [Nat.mod_eq_of_lt hc]) ?_
    refine List.map_congr_left ?_
    intro t _
    show ((c + 1) % n + t) % n = (c + Nat.succ t) % n
    rw [Nat.mod_add_mod]
    exact congrArg (· % n) (by omega)

theorem spawnSeq_cycle_count (n c w : Nat) (hn : 0 < n) (hc : c < n) (hw : w < n) :
    (spawnSeq n c n).count w = 1 := by
  rw [spawnSeq_eq_map n hn n c hc]
  apply List.count_eq_one_of_mem
  · refine List.Nodup.map_on ?_ (List.nodup_range n)
    intro x hx y hy hxy
    have hx1 : x < n := List.mem_range.mp hx
    have hy1 : y < n := List.mem_range.mp hy
    have hmod : x ≡ y [MOD n] := Nat.ModEq.add_left_cancel' c hxy
    have h2 : x % n = y % n := hmod
    rwa [Nat.mod_eq_of_lt hx1, Nat.mod_eq_of_lt hy1] at h2
  · refine List.mem_map.mpr ⟨(n + w - c) % n, List.mem_range.mpr (Nat.mod_lt _ hn), ?_⟩
    rw [Nat.add_mod_mod]
    have hsum : c + (n + w - c) = n + w := by omega
    rw [hsum, Nat.add_mod_left, Nat.mod_eq_of_lt hw]

theorem spawnSeq_add (n : Nat) (hn : 0 < n) :
    ∀ (a b c : Nat), c < n →
      spawnSeq n c (a + b) = spawnSeq n c a ++ spawnSeq n ((c + a) % n) b := by
  intro a
  induction a with
  | zero => intro b c hc; simp [spawnSeq, Nat.mod_eq_of_lt hc]
  | succ a ih =>
    intro b c hc
    have h1 : a + 1 + b = (a + b) + 1 := by omega
    rw [h1, spawnSeq, spawnSeq, ih b ((c + 1) % n) (Nat.mod_lt _ hn), List.cons_append]
    refine congrArg (List.cons c) (congrArg (spawnSeq n ((c + 1) % n) a ++
      spawnSeq n · b) ?_)
    rw [Nat.mod_add_mod]
    exact congrArg (· % n) (by omega)

theorem spawnSeq_count (n c w k : Nat) (hn : 0 < n) (hc : c < n) (hw : w < n) :
    (spawnSeq n c (n * k)).count w = k := by
  induction k generalizing c with
  | zero => simp [spawnSeq]
  | succ k ih =>
    have h1 : n * (k + 1) = n + n * k := by ring
    have h2 : (c + n) % n = c := by
      rw [Nat.add_mod_right, Nat.mod_eq_of_lt hc]
    rw [h1, spawnSeq_add n hn n (n * k) c hc, List.count_append,
        spawnSeq_cycle_count n c w hn hc hw, h2, ih c hc]
    omega

/-- Claim C7: on a pool with at least one worker, `spawn_on(Some(i), job)`
with `i < num_threads()` dispatches to worker `i` and leaves
`current_worker_id` unchanged; `spawn_on(None, job)` dispatches to worker
`current_worker_id` and advances it to `(current_worker_id + 1) mod
num_threads()`; and `n * k` hint-free spawns on an `n`-worker pool send
exactly `k` jobs to each worker. -/
theorem spawn_on_dispatch (p : ThreadPool) (i n c k w : Nat)
    (hi : i < p.num_threads) (hcur : p.current_worker_id < p.num_threads)
    (hn : 0 < n) (hc : c < n) (hw : w < n) :
    spawn_on p (some i) = .ok (i, p) ∧
    spawn_on p none = .ok (p.current_worker_id,
      { p with current_worker_id := (p.current_worker_id + 1) % p.num_threads }) ∧
    (spawnSeq n c (n * k)).count w = k := by
  refine ⟨by simp [spawn_on, hi], ?_, spawnSeq_count n c w k hn hc hw⟩
  have hpos : p.num_threads ≠ 0 := by omega
  simp [spawn_on, hpos, hcur]

theorem spawn_on_dispatch_witness :
    spawn_on ⟨4, 2⟩ (some 1) = .ok (1, ⟨4, 2⟩) ∧
    spawn_on ⟨4, 2⟩ none = .ok (2, ⟨4, 3⟩) ∧
    (spawnSeq 4 2 (4 * 3)).count 0 = 3 := by
  have h := spawn_on_dispatch ⟨4, 2⟩ 1 4 2 3 0 (by decide) (by decide)
    (by decide) (by decide) (by decide)
  refine ⟨h.1, ?_, h.2.2⟩
  have h2 := h.2.1
  simpa using h2

/-- Claim C8 counterexample: with the `core_affinity` feature disabled,
`ThreadPool::new(5)` creates 5 workers even on a 2-core machine, not
`min 5 2 = 2`. -/
theorem make_workers_plain_not_min :
    (make_workers_plain 5).length = 5 ∧ (5 : Nat) ≠ min 5 2 := by decide

/-- Claim C8, amended: with the `core_affinity` feature enabled,
`ThreadPool::new(n)` creates `min n cpu_count` workers (one per core id
returned by `get_core_ids`, at most `n`); without the feature it creates
exactly `n` workers regardless of the machine.  `num_threads()` returns
the length of the worker vector in either case. -/
theorem make_workers_length (core_ids : List Nat) (n : Nat) :
    (make_workers_affinity core_ids n).length = min n core_ids.length ∧
    (make_workers_plain n).length = n := by
  constructor
  · rw [make_workers_affinity, List.length_take]
  · rw [make_workers_plain, List.length_map, List.length_range]

/-- Claim C10: `spawn_on(Some(i), job)` with `i ≥ num_threads()` panics
with an out-of-bounds index; `spawn_on(None, job)` (and hence `spawn`) on
a pool with zero workers panics computing `(current + 1) % 0`; and every
successful dispatch stays inside the worker vector. -/
theorem spawn_on_fault (p q : ThreadPool) (i : Nat)
    (hi : p.num_threads ≤ i) (hq : q.num_threads = 0) :
    spawn_on p (some i) = .error .indexOutOfBounds ∧
    spawn_on q none = .error .remainderZero ∧
    (∀ (r : ThreadPool) (hint : Option Nat) (w : Nat) (r1 : ThreadPool),
      spawn_on r hint = .ok (w, r1) → w < r.num_threads) := by
  refine ⟨by simp [spawn_on]; omega, by simp [spawn_on, hq], ?_⟩
  intro r hint w r1 hok
  match hint with
  | some j =>
    by_cases hj : j < r.num_threads
    · simp [spawn_on, hj] at hok
      omega
    · simp [spawn_on, hj] at hok
  | none =>
    by_cases hz : r.num_threads = 0
    · simp [spawn_on, hz] at hok
    · by_cases hcur : r.current_worker_id < r.num_threads
      · simp [spawn_on, hz, hcur] at hok
        omega
      · simp [spawn_on, hz, hcur] at hok

theorem spawn_on_fault_witness :
    spawn_on ⟨2, 0⟩ (some 5) = .error .indexOutOfBounds ∧
    spawn_on ⟨0, 0⟩ none = .error .remainderZero := by
  have h := spawn_on_fault ⟨2, 0⟩ ⟨0, 0⟩ 5 (by decide) (by decide)
  exact ⟨h.1, h.2.1⟩

/-! ## Byte-stream theorems (claim C9) -/

theorem read_bytes_into_spec :
    ∀ (cs : List (List Nat)) (n : Nat) (bs : List Nat) (rest : List (List Nat)),
      read_bytes_into n cs = some (bs, rest) →
      bs.length = n ∧ streamBytes cs = bs ++ streamBytes rest := by
  intro cs
  induction cs with
  | nil =>
    intro n bs rest h
    match n with
    | 0 =>
      simp [read_bytes_into] at h
      simp [h.1, h.2, streamBytes]
    | _ + 1 => simp [read_bytes_into] at h
  | cons c cs ih =>
    intro n bs rest h
    match n with
    | 0 =>
      simp [read_bytes_into] at h
      simp [h.1, h.2, streamBytes]
    | n + 1 =>
      rw [read_bytes_into] at h
      by_cases hlen : n + 1 < c.length
      · rw [if_pos hlen] at h
        have h1 : bs = c.take (n + 1) := by
          have := h
          simp at this
          exact this.1.symm
        have h2 : rest = c.drop (n + 1) :: cs := by
          have := h
          simp at this
          exact this.2.symm
        subst h1; subst h2
        constructor
        · simp [List.length_take]; omega
        · simp only [streamBytes, List.flatten_cons]
          rw [← List.append_assoc, List.take_append_drop]
      · rw [if_neg hlen] at h
        cases h2 : read_bytes_into (n + 1 - c.length) cs with
        | none => rw [h2] at h; cases h
        | some pr =>
          rw [h2] at h
          have h3 := ih (n + 1 - c.length) pr.1 pr.2 (by rw [h2])
          have h4 : bs = c ++ pr.1 ∧ rest = pr.2 := by
            cases pr; simp at h; exact ⟨h.1.symm, h.2.symm⟩
          rcases h4 with ⟨h5, h6⟩
          subst h5; subst h6
          constructor
          · simp [h3.1]; omega
          · simp only [streamBytes, List.flatten_cons] at h3 ⊢
            rw [h3.2, List.append_assoc]

theorem read_bytes_into_total :
    ∀ (cs : List (List Nat)) (n : Nat), n ≤ (streamBytes cs).length →
      ∃ bs rest, read_bytes_into n cs = some (bs, rest) := by
  intro cs
  induction cs with
  | nil =>
    intro n hn
    match n with
    | 0 => exact ⟨[], [], rfl⟩
    | _ + 1 => simp [streamBytes] at hn
  | cons c cs ih =>
    intro n hn
    match n with
    | 0 => exact ⟨[], c :: cs, rfl⟩
    | n + 1 =>
      rw [read_bytes_into]
      by_cases hlen : n + 1 < c.length
      · rw [if_pos hlen]
        exact ⟨_, _, rfl⟩
      · rw [if_neg hlen]
        have hrest : n + 1 - c.length ≤ (streamBytes cs).length := by
          simp [streamBytes] at hn ⊢
          omega
        obtain ⟨bs, rest, hbs⟩ := ih (n + 1 - c.length) hrest
        rw [hbs]
        exact ⟨_, _, rfl⟩

/-- Claim C9: `read_usize_non_blocking` either consumes exactly 8 bytes
and returns their little-endian value, or consumes nothing and returns
absent: an absent result leaves the stream bytes unchanged and happens
exactly when the first read attempt yields zero bytes; a committed read
consumes exactly the first 8 bytes of the stream; and when the first
chunk is non-empty and at least 8 bytes are available the committed read
succeeds. -/
theorem read_usize_nb_all_or_nothing (cs rest : List (List Nat)) (v : Nat)
    (hgot : read_usize_non_blocking cs = .got v rest) :
    streamBytes cs = (streamBytes cs).take 8 ++ streamBytes rest ∧
    8 ≤ (streamBytes cs).length ∧
    v = fromLE ((streamBytes cs).take 8) ∧
    (∀ (cs1 rest1 : List (List Nat)), read_usize_non_blocking cs1 = .absent rest1 →
      streamBytes rest1 = streamBytes cs1) ∧
    (∀ (c : List Nat) (cs1 : List (List Nat)), c ≠ [] →
      8 ≤ (streamBytes (c :: cs1)).length →
      ∃ v1 rest1, read_usize_non_blocking (c :: cs1) = .got v1 rest1) := by
  have main : ∀ (cs2 : List (List Nat)) (v2 : Nat) (rest2 : List (List Nat)),
      read_usize_non_blocking cs2 = .got v2 rest2 →
      ∃ b8, streamBytes cs2 = b8 ++ streamBytes rest2 ∧ b8.length = 8 ∧
        v2 = fromLE b8 := by
    intro cs2 v2 rest2 h
    rw [read_usize_non_blocking] at h
    cases hnb : read_bytes_into_non_blocking 8 cs2 with
    | absent r => rw [hnb] at h; cases h
    | blocked => rw [hnb] at h; cases h
    | got bs r =>
      rw [hnb] at h
      cases h
      cases cs2 with
      | nil => simp [read_bytes_into_non_blocking] at hnb
      | cons c cs3 =>
        rw [read_bytes_into_non_blocking] at hnb
        by_cases hc : c.length = 0 ∨ (8 : Nat) = 0
        · simp only [if_pos hc] at hnb; cases hnb
        · simp only [if_neg hc] at hnb
          cases hri : read_bytes_into (8 - min 8 c.length)
              (if c.length ≤ 8 then cs3 else c.drop 8 :: cs3) with
          | none => rw [hri] at hnb; cases hnb
          | some pr =>
            rw [hri] at hnb
            cases hnb
            have hspec := read_bytes_into_spec _ _ _ _ hri
            refine ⟨c.take 8 ++ pr.1, ?_, ?_, rfl⟩
            · by_cases hcl : c.length ≤ 8
              · rw [if_pos hcl] at hspec
                simp [streamBytes] at hspec ⊢
                rw [hspec.2]
                simp [List.take_of_length_le hcl]
              · rw [if_neg hcl] at hspec
                simp [streamBytes] at hspec ⊢
                rw [← hspec.2, ← List.append_assoc, List.take_append_drop]
            · have h8 : (c.take 8).length = min 8 c.length := by
                simp [List.length_take, Nat.min_comm]
              rw [List.length_append, h8, hspec.1]
              have : min 8 c.length ≤ 8 := Nat.min_le_left _ _
              omega
  obtain ⟨b8, hb8, hlen8, hv⟩ := main cs v rest hgot
  refine ⟨?_, ?_, ?_, ?_, ?_⟩
  · rw [hb8, List.take_append_of_le_length (by omega), List.take_of_length_le (by omega)]
  · rw [hb8, List.length_append]; omega
  · rw [hb8, List.take_append_of_le_length (by omega), List.take_of_length_le (by omega)]
    exact hv
  · intro cs1 rest1 habs
    rw [read_usize_non_blocking] at habs
    cases hnb : read_bytes_into_non_blocking 8 cs1 with
    | got bs r => rw [hnb] at habs; cases habs
    | blocked => rw [hnb] at habs; cases habs
    | absent r =>
      rw [hnb] at habs
      cases habs
      cases cs1 with
      | nil =>
        rw [read_bytes_into_non_blocking] at hnb
        cases hnb
        rfl
      | cons c cs3 =>
        rw [read_bytes_into_non_blocking] at hnb
        by_cases hc : c.length = 0 ∨ (8 : Nat) = 0
        · simp only [if_pos hc] at hnb
          cases hnb
          rfl
        · simp only [if_neg hc] at hnb
          cases hri : read_bytes_into (8 - min 8 c.length)
              (if c.length ≤ 8 then cs3 else c.drop 8 :: cs3) with
          | none => rw [hri] at hnb; cases hnb
          | some pr => rw [hri] at hnb; cases hnb
  · intro c cs1 hcne hlen
    rw [read_usize_non_blocking, read_bytes_into_non_blocking]
    have hc : ¬(c.length = 0 ∨ (8 : Nat) = 0) := by
      rintro (h | h)
      · exact hcne (List.eq_nil_of_length_eq_zero h)
      · omega
    rw [if_neg hc]
    have havail : 8 - min 8 c.length ≤
        (streamBytes (if c.length ≤ 8 then cs1 else c.drop 8 :: cs1)).length := by
      by_cases hcl : c.length ≤ 8
      · rw [if_pos hcl]
        simp [streamBytes] at hlen ⊢
        omega
      · rw [if_neg hcl]
        simp [streamBytes]
        omega
    obtain ⟨bs, rest1, hbs⟩ := read_bytes_into_total _ _ havail
    rw [hbs]
    exact ⟨_, _, rfl⟩

theorem read_usize_nb_witness :
    streamBytes [[1, 0], [0, 0, 0, 0, 0, 0], [9]] =
      (streamBytes [[1, 0], [0, 0, 0, 0, 0, 0], [9]]).take 8 ++ streamBytes [[9]] ∧
    8 ≤ (streamBytes [[1, 0], [0, 0, 0, 0, 0, 0], [9]]).length ∧
    1 = fromLE ((streamBytes [[1, 0], [0, 0, 0, 0, 0, 0], [9]]).take 8) ∧
    (∀ (cs1 rest1 : List (List Nat)), read_usize_non_blocking cs1 = .absent rest1 →
      streamBytes rest1 = streamBytes cs1) ∧
    (∀ (c : List Nat) (cs1 : List (List Nat)), c ≠ [] →
      8 ≤ (streamBytes (c :: cs1)).length →
      ∃ v1 rest1, read_usize_non_blocking (c :: cs1) = .got v1 rest1) :=
  read_usize_nb_all_or_nothing [[1, 0], [0, 0, 0, 0, 0, 0], [9]] [[9]] 1 (by decide)

/-! ## Wire-format theorems (claim C4) -/

theorem toLE_length (w n : Nat) : (toLE w n).length = w := by
  induction w generalizing n with
  | zero => rfl
  | succ w ih => simp [toLE, ih]

theorem fromLE_toLE (w n : Nat) : fromLE (toLE w n) = n % 256 ^ w := by
  induction w generalizing n with
  | zero => simp [toLE, fromLE, Nat.mod_one]
  | succ w ih =>
    rw [toLE, fromLE, ih]
    have h2 : (256 : Nat) ^ (w + 1) = 256 * 256 ^ w := by rw [pow_succ, mul_comm]
    rw [h2, Nat.mod_mul]
    congr 1
    omega

theorem read_usize_of_toLE (n : Nat) (tail : List Nat) (hn : n < 2 ^ 64) :
    read_usize (toLE 8 n ++ tail) = some (n, tail) := by
  have hlen : (toLE 8 n).length = 8 := toLE_length 8 n
  rw [read_usize, if_pos (by simp [hlen]),
      List.take_append_of_le_length (by omega), List.take_of_length_le (by omega),
      List.drop_append_of_le_length (by omega), List.drop_of_length_le (by omega),
      List.nil_append, fromLE_toLE]
  have h8 : (256 : Nat) ^ 8 = 2 ^ 64 := by norm_num
  rw [h8, Nat.mod_eq_of_lt hn]

theorem poll_record (p : List Nat) (t : Nat) (tail : List Nat)
    (hp : p.length < 2 ^ 64) (ht : t < 2 ^ 64) :
    poll (writeRecord p t ++ tail) = some ((p, t), tail) := by
  have h1 : writeRecord p t ++ tail = toLE 8 p.length ++ (toLE 8 t ++ (p ++ tail)) := by
    simp [writeRecord]
  rw [poll, h1, read_usize_of_toLE p.length _ hp]
  dsimp only
  rw [read_usize_of_toLE t _ ht]
  dsimp only
  rw [if_pos (by simp), List.take_append_of_le_length (by omega),
      List.take_of_length_le (by omega), List.drop_append_of_le_length (by omega),
      List.drop_of_length_le (by omega), List.nil_append]

/-- Claim C4: each `(payload, tag)` record sent to one destination is
written on the wire as an 8-byte little-endian length, an 8-byte
little-endian tag, then the payload bytes, and parsing the concatenated
stream with the embedded `ConnectionPool::poll` yields exactly the same
records in order, with nothing left over. -/
theorem framing_round_trip (rs : List (List Nat × Nat))
    (hb : ∀ r ∈ rs, r.1.length < 2 ^ 64 ∧ r.2 < 2 ^ 64) :
    (∀ p t, writeRecord p t = toLE 8 p.length ++ toLE 8 t ++ p) ∧
    pollRecords rs.length (writeRecords rs) = (rs, []) := by
  refine ⟨fun p t => rfl, ?_⟩
  induction rs with
  | nil => simp [pollRecords, writeRecords]
  | cons r rs ih =>
    have hr := hb r (by simp)
    have hrest : ∀ q ∈ rs, q.1.length < 2 ^ 64 ∧ q.2 < 2 ^ 64 := by
      intro q hq
      exact hb q (by simp [hq])
    have hw : writeRecords (r :: rs) = writeRecord r.1 r.2 ++ writeRecords rs := by
      simp [writeRecords]
    rw [List.length_cons, pollRecords, hw, poll_record r.1 r.2 _ hr.1 hr.2]
    simp [ih hrest]

theorem framing_round_trip_witness :
    (∀ p t, writeRecord p t = toLE 8 p.length ++ toLE 8 t ++ p) ∧
    pollRecords 2 (writeRecords [([5], 3), ([], 7)]) = ([([5], 3), ([], 7)], []) := by
  have h := framing_round_trip [([5], 3), ([], 7)] (by decide)
  exact ⟨h.1, h.2⟩

/-! ## TcpCommunicator receive theorems (claim C3) -/

theorem scanUndelivered_mem (stamp : Nat) :
    ∀ (l : List (List Nat × Nat)) (msg : List Nat) (l1 : List (List Nat × Nat)),
      scanUndelivered stamp l = some (msg, l1) → (msg, stamp) ∈ l := by
  intro l
  induction l with
  | nil => intro msg l1 h; cases h
  | cons e rest ih =>
    intro msg l1 h
    match e with
    | (m0, t0) =>
      rw [scanUndelivered] at h
      by_cases ht : t0 = stamp
      · rw [if_pos ht] at h
        cases h
        subst ht
        exact List.mem_cons_self _ _
      · rw [if_neg ht] at h
        cases hrec : scanUndelivered stamp rest with
        | none => rw [hrec] at h; cases h
        | some pr =>
          rw [hrec] at h
          cases h
          exact List.mem_cons_of_mem _ (ih pr.1 pr.2 (by rw [hrec]))

theorem scanUndelivered_first (stamp : Nat) (msg : List Nat) :
    ∀ (pre post : List (List Nat × Nat)), (∀ e ∈ pre, e.2 ≠ stamp) →
      scanUndelivered stamp (pre ++ (msg, stamp) :: post) = some (msg, pre ++ post) := by
  intro pre
  induction pre with
  | nil => intro post _; simp [scanUndelivered]
  | cons e pre ih =>
    intro post hpre
    match e with
    | (m0, t0) =>
      have ht : t0 ≠ stamp := hpre (m0, t0) (by simp)
      rw [List.cons_append, scanUndelivered, if_neg ht,
          ih post (fun x hx => hpre x (by simp [hx]))]
      rfl

theorem scanUndelivered_none (stamp : Nat) :
    ∀ (l : List (List Nat × Nat)), (∀ e ∈ l, e.2 ≠ stamp) →
      scanUndelivered stamp l = none := by
  intro l
  induction l with
  | nil => intro _; rfl
  | cons e rest ih =>
    intro h
    match e with
    | (m0, t0) =>
      rw [scanUndelivered, if_neg (h (m0, t0) (by simp)),
          ih (fun x hx => h x (by simp [hx]))]

theorem pullMatching_mem (stamp : Nat) :
    ∀ (pool parked : List (List Nat × Nat)) (msg : List Nat)
      (und rest : List (List Nat × Nat)),
      pullMatching stamp parked pool = some (msg, und, rest) → (msg, stamp) ∈ pool := by
  intro pool
  induction pool with
  | nil => intro parked msg und rest h; cases h
  | cons e pool ih =>
    intro parked msg und rest h
    match e with
    | (m0, t0) =>
      rw [pullMatching] at h
      by_cases ht : t0 ≠ stamp
      · rw [if_pos ht] at h
        exact List.mem_cons_of_mem _ (ih _ msg und rest h)
      · rw [if_neg ht] at h
        cases h
        simp at ht
        subst ht
        exact List.mem_cons_self _ _

theorem pullMatching_first (stamp : Nat) (msg : List Nat) :
    ∀ (pre : List (List Nat × Nat)) (parked post : List (List Nat × Nat)),
      (∀ e ∈ pre, e.2 ≠ stamp) →
      pullMatching stamp parked (pre ++ (msg, stamp) :: post) =
        some (msg, parked ++ pre, post) := by
  intro pre
  induction pre with
  | nil => intro parked post _; simp [pullMatching]
  | cons e pre ih =>
    intro parked post hpre
    match e with
    | (m0, t0) =>
      have ht : t0 ≠ stamp := hpre (m0, t0) (by simp)
      rw [List.cons_append, pullMatching, if_pos ht,
          ih (parked ++ [(m0, t0)]) post (fun x hx => hpre x (by simp [hx]))]
      simp

/-- Claim C3: `TcpCommunicator::recv` returns only message bodies whose
tag equals the current `time_stamp` (so a message sent at stamp `s` is
never returned while the stamp differs from `s`): any returned body was
paired with the current stamp in `undelivered` or in the pool; the first
parked entry with a matching tag is removed and returned with the pool
untouched; and when no parked entry matches, pairs are pulled from the
pool, the mismatching prefix is parked in order, and the first matching
payload is returned. -/
theorem tcp_recv_stamp_isolation (c : TcpComm) :
    (∀ msg c1, tcp_recv c = some (msg, c1) →
      (msg, c.time_stamp) ∈ c.undelivered ++ c.pool ∧ c1.time_stamp = c.time_stamp) ∧
    (∀ pre msg post, c.undelivered = pre ++ (msg, c.time_stamp) :: post →
      (∀ e ∈ pre, e.2 ≠ c.time_stamp) →
      tcp_recv c = some (msg, ⟨pre ++ post, c.time_stamp, c.pool⟩)) ∧
    (∀ pre msg post, (∀ e ∈ c.undelivered, e.2 ≠ c.time_stamp) →
      c.pool = pre ++ (msg, c.time_stamp) :: post →
      (∀ e ∈ pre, e.2 ≠ c.time_stamp) →
      tcp_recv c = some (msg, ⟨c.undelivered ++ pre, c.time_stamp, post⟩)) := by
  refine ⟨?_, ?_, ?_⟩
  · intro msg c1 h
    rw [tcp_recv] at h
    cases hscan : scanUndelivered c.time_stamp c.undelivered with
    | some pr =>
      rw [hscan] at h
      cases h
      exact ⟨List.mem_append_left _
        (scanUndelivered_mem c.time_stamp c.undelivered pr.1 pr.2 (by rw [hscan])),
        rfl⟩
    | none =>
      rw [hscan] at h
      cases hpull : pullMatching c.time_stamp c.undelivered c.pool with
      | none => rw [hpull] at h; cases h
      | some pr =>
        rw [hpull] at h
        cases h
        exact ⟨List.mem_append_right _
          (pullMatching_mem c.time_stamp c.pool c.undelivered pr.1 pr.2.1 pr.2.2
            (by rw [hpull])),
          rfl⟩
  · intro pre msg post hund hpre
    rw [tcp_recv, hund, scanUndelivered_first c.time_stamp msg pre post hpre]
  · intro pre msg post hund hpool hpre
    rw [tcp_recv, scanUndelivered_none c.time_stamp c.undelivered hund, hpool,
        pullMatching_first c.time_stamp msg pre c.undelivered post hpre]

theorem tcp_recv_stamp_isolation_witness :
    tcp_recv ⟨[([1], 5), ([2], 3)], 3, [([9], 4)]⟩ =
      some ([2], ⟨[([1], 5)], 3, [([9], 4)]⟩) ∧
    tcp_recv ⟨[([1], 5)], 3, [([9], 4), ([4], 3)]⟩ =
      some ([4], ⟨[([1], 5), ([9], 4)], 3, []⟩) := by
  constructor
  · exact (tcp_recv_stamp_isolation ⟨[([1], 5), ([2], 3)], 3, [([9], 4)]⟩).2.1
      [([1], 5)] [2] [] (by decide) (by decide)
  · exact (tcp_recv_stamp_isolation ⟨[([1], 5)], 3, [([9], 4), ([4], 3)]⟩).2.2
      [([9], 4)] [4] [] (by decide) (by decide) (by decide)

/-! ## Coordinator theorems: drain panic and stage-end emptiness
(claims C6 and C2) -/

theorem deliverSeen_boxes {A K M : Type} [DecidableEq K] (impl : AutomatonImpl A K M)
    (st : CoordState A K M) (dest : K) (data : M) (a : A) :
    (deliverSeen impl st dest data a).undelivered = st.undelivered ∧
    (deliverSeen impl st dest data a).dropped = st.dropped := by
  rw [deliverSeen]
  split
  · exact ⟨rfl, rfl⟩
  · exact ⟨rfl, rfl⟩

theorem drain_keeps_boxes {A K M : Type} [DecidableEq K] (impl : AutomatonImpl A K M) :
    ∀ (inc : List (K × M)) (st : CoordState A K M),
      (drain impl st inc).2.1.undelivered = st.undelivered ∧
      (drain impl st inc).2.1.dropped = st.dropped ∧
      ((drain impl st inc).1 = .ok → (drain impl st inc).2.1.seen = []) := by
  intro inc
  induction inc with
  | nil =>
    intro st
    by_cases h : st.seen.isEmpty = true
    · rw [drain, if_pos h]
      exact ⟨rfl, rfl, fun _ => List.isEmpty_iff.mp h⟩
    · rw [drain, if_neg h]
      exact ⟨rfl, rfl, fun hok => absurd hok (by simp)⟩
  | cons dm rest ih =>
    intro st
    obtain ⟨dest, data⟩ := dm
    by_cases h : st.seen.isEmpty = true
    · rw [drain, if_pos h]
      exact ⟨rfl, rfl, fun _ => List.isEmpty_iff.mp h⟩
    · cases hl : lookupA st.seen dest with
      | some a =>
        rw [drain, if_neg h, hl]
        refine ⟨?_, ?_, (ih _).2.2⟩
        · rw [(ih _).1, (deliverSeen_boxes impl st dest data a).1]
        · rw [(ih _).2.1, (deliverSeen_boxes impl st dest data a).2]
      | none =>
        rw [drain, if_neg h, hl]
        exact ⟨rfl, rfl, fun hok => absurd hok (by simp)⟩

/-- Claim C6: in the drain phase, a decoded incoming message whose key is
not present in `seen` makes the coordinator panic (the `unknownKey`
outcome of the embedded `panic!` on automaton.rs lines 308-313) with the
message and remaining input untouched, rather than buffering or dropping
the message. -/
theorem drain_unknown_key_panics {A K M : Type} [DecidableEq K]
    (impl : AutomatonImpl A K M) (st : CoordState A K M) (dest : K) (data : M)
    (rest : List (K × M))
    (hne : st.seen.isEmpty = false) (hnk : lookupA st.seen dest = none) :
    drain impl st ((dest, data) :: rest) = (.unknownKey, st, rest) := by
  rw [drain, if_neg (by simp [hne]), hnk]

theorem drain_unknown_key_panics_witness :
    drain implTwoToOne ⟨[(5, 5)], [], [], []⟩ [(0, 9)] =
      (.unknownKey, ⟨[(5, 5)], [], [], []⟩, []) :=
  drain_unknown_key_panics implTwoToOne ⟨[(5, 5)], [], [], []⟩ 0 9 []
    (by decide) (by decide)

/-- Claim C2: when a coordination stage terminates normally, both
transient maps are empty at the end: `undelivered` already when the flow
iteration ends (its emptiness is the gate past the assertion), and `seen`
when the drain loop exits. -/
theorem coordinate_no_leaks {A K M : Type} [DecidableEq K] (impl : AutomatonImpl A K M)
    (rank : Nat) (work : K → Nat) (flow : List A) (incoming : List (K × M))
    (hok : (coordinate impl rank work flow incoming).1 = .ok) :
    (coordinate impl rank work flow incoming).2.1.undelivered = [] ∧
    (coordinate impl rank work flow incoming).2.1.seen = [] := by
  rw [coordinate] at hok ⊢
  by_cases h : (flow.foldl (processTask impl rank work) ⟨[], [], [], []⟩).undelivered.isEmpty = true
  · rw [if_pos h] at hok ⊢
    refine ⟨?_, (drain_keeps_boxes impl incoming _).2.2 hok⟩
    rw [(drain_keeps_boxes impl incoming _).1]
    exact List.isEmpty_iff.mp h
  · rw [if_neg h] at hok
    exact absurd hok (by simp)

theorem coordinate_no_leaks_witness :
    (coordinate implTwoToOne 0 (fun _ => 0) [1, 0] []).2.1.undelivered = [] ∧
    (coordinate implTwoToOne 0 (fun _ => 0) [1, 0] []).2.1.seen = [] :=
  coordinate_no_leaks implTwoToOne 0 (fun _ => 0) [1, 0] [] (by decide)

/-! ## Coordinator theorems: independent tasks (claim C5) -/

/-- Claim C5 counterexample: task 0 of `implIndepTarget` is independent,
yet in the stage with flow `[1, 0]` (task 1 sends message 7 to task 0
first) the coordinator calls `receive` on task 0 — the parked-message
delivery on automaton.rs lines 285-289 runs before the
`eligible || a.independent()` test — so the trace shows a receive event
for task 0 before its sink event, in a normally terminating stage. -/
theorem independent_gets_receive_counterexample :
    implIndepTarget.independent 0 = true ∧
    (coordinate implIndepTarget 0 (fun _ => 0) [1, 0] []).1 = .ok ∧
    (coordinate implIndepTarget 0 (fun _ => 0) [1, 0] []).2.1.trace =
      [Event.sink 1, Event.recv 0 7, Event.sink 0] := by
  decide

/-- Claim C5, amended: an independent task is pushed to the sink during
the flow iteration without any `receive` call, provided no messages are
parked for its key when it is processed (with parked messages present,
the coordinator first delivers them through `receive`).  Formally:
processing a task `a` with `independent() == true` and no `undelivered`
entry for its key leaves `seen` and `undelivered` as the routing phase
left them and appends exactly one sink event for `a` — in particular no
receive event targets `a`. -/
theorem independent_sink_no_receive {A K M : Type} [DecidableEq K]
    (impl : AutomatonImpl A K M) (rank : Nat) (work : K → Nat)
    (st : CoordState A K M) (a : A)
    (hind : impl.independent a = true)
    (hparked : removeEntry ((impl.messages a).foldl (routeMsg impl rank work) st).undelivered
        (impl.key a) = none) :
    processTask impl rank work st a =
      { (impl.messages a).foldl (routeMsg impl rank work) st with
        trace := ((impl.messages a).foldl (routeMsg impl rank work) st).trace
          ++ [Event.sink (impl.key a)] } := by
  rw [processTask]
  rw [hparked]
  rw [if_pos hind]

theorem independent_sink_no_receive_witness :
    processTask implIndepTarget 0 (fun _ => 0) ⟨[], [], [], []⟩ 5 =
      ⟨[], [], [Event.sink 5], []⟩ := by
  rw [independent_sink_no_receive implIndepTarget 0 (fun _ => 0) ⟨[], [], [], []⟩ 5
      (by decide) (by decide)]
  rfl

/-! ## Coordinator theorems: message delivery (claim C1) -/

/-- Claim C1 counterexample: in the `implTwoToOne` group with flow
`[1, 0]`, task 1 produces the two locally-addressed messages `(0, 7)` and
`(0, 8)`; task 0 reports `Eligible` on the first parked message, so the
short-circuiting `any` on automaton.rs line 288 drops `(0, 8)` without
ever calling `receive` on it, yet the stage terminates normally: the
message `(0, 8)` is produced with `work(dest)` equal to the local rank
but `receive` is called zero times for it, not exactly once. -/
theorem coordinate_drops_message_counterexample :
    (0, 8) ∈ producedLocal implTwoToOne 0 (fun _ => 0) [1, 0] ∧
    (coordinate implTwoToOne 0 (fun _ => 0) [1, 0] []).1 = .ok ∧
    countRecv (coordinate implTwoToOne 0 (fun _ => 0) [1, 0] []).2.1.trace 0 8 = 0 ∧
    (coordinate implTwoToOne 0 (fun _ => 0) [1, 0] []).2.1.dropped = [(0, 8)] := by
  decide

theorem recvPairs_append {K M : Type} :
    ∀ (t u : List (Event K M)), recvPairs (t ++ u) = recvPairs t ++ recvPairs u := by
  intro t u
  induction t with
  | nil => rfl
  | cons e t ih =>
    cases e with
    | recv k m => simp [recvPairs, ih]
    | sink k => simp [recvPairs, ih]
    | send r k m => simp [recvPairs, ih]

theorem recvPairs_map_recv {K M : Type} (k0 : K) :
    ∀ (l : List M), recvPairs (l.map (Event.recv k0)) = l.map (Prod.mk k0) := by
  intro l
  induction l with
  | nil => rfl
  | cons m l ih => simp [recvPairs, ih]

theorem countPair_append {K M : Type} [DecidableEq K] [DecidableEq M]
    (l1 l2 : List (K × M)) (k : K) (m : M) :
    countPair (l1 ++ l2) k m = countPair l1 k m + countPair l2 k m :=
  List.countP_append _ _ _

theorem undFlat_cons {K M : Type} (e : K × List M) (und : List (K × List M)) :
    undFlat (e :: und) = e.2.map (Prod.mk e.1) ++ undFlat und := by
  simp [undFlat]

theorem countPair_pushUnd {K M : Type} [DecidableEq K] [DecidableEq M] (d : K) (x : M) :
    ∀ (und : List (K × List M)) (k : K) (m : M),
      countPair (undFlat (pushUnd und d x)) k m =
        countPair (undFlat und) k m + countPair [(d, x)] k m := by
  intro und
  induction und with
  | nil =>
    intro k m
    simp [pushUnd, undFlat, countPair]
  | cons e und ih =>
    intro k m
    obtain ⟨k1, ms⟩ := e
    by_cases h : k1 = d
    · subst h
      rw [pushUnd, if_pos rfl, undFlat_cons, undFlat_cons]
      simp only [List.map_append, List.map_cons, List.map_nil]
      rw [List.append_assoc, countPair_append, countPair_append, countPair_append]
      omega
    · rw [pushUnd, if_neg h, undFlat_cons, undFlat_cons,
          countPair_append, countPair_append, ih k m]
      omega

theorem countPair_removeEntry {K M : Type} [DecidableEq K] [DecidableEq M] (k0 : K) :
    ∀ (und : List (K × List M)) (ms : List M) (und1 : List (K × List M)) (k : K) (m : M),
      removeEntry und k0 = some (ms, und1) →
      countPair (undFlat und) k m =
        countPair (undFlat und1) k m + countPair (ms.map (Prod.mk k0)) k m := by
  intro und
  induction und with
  | nil => intro ms und1 k m h; cases h
  | cons e und ih =>
    intro ms und1 k m h
    obtain ⟨k1, ms1⟩ := e
    rw [removeEntry] at h
    by_cases hk : k1 = k0
    · rw [if_pos hk] at h
      cases h
      subst hk
      rw [undFlat_cons, countPair_append]
      dsimp only
      omega
    · rw [if_neg hk] at h
      cases hrec : removeEntry und k0 with
      | none => rw [hrec] at h; cases h
      | some pr =>
        rw [hrec] at h
        cases h
        rw [undFlat_cons, undFlat_cons, countPair_append, countPair_append,
            ih pr.1 pr.2 k m (by rw [hrec])]
        omega

theorem deliverParked_partition {A K M : Type} (impl : AutomatonImpl A K M) :
    ∀ (ms : List M) (a : A),
      (deliverParked impl a ms).delivered ++ (deliverParked impl a ms).remaining = ms := by
  intro ms
  induction ms with
  | nil => intro a; rfl
  | cons m ms ih =>
    intro a
    rw [deliverParked]
    by_cases h : (impl.receive a m).2 = true
    · rw [if_pos h]
      rfl
    · rw [if_neg h]
      dsimp only
      rw [List.cons_append, ih (impl.receive a m).1]

theorem deliverSeen_countRecv {A K M : Type} [DecidableEq K] [DecidableEq M]
    (impl : AutomatonImpl A K M) (st : CoordState A K M) (dest : K) (data : M)
    (a : A) (k : K) (m : M) :
    countRecv (deliverSeen impl st dest data a).trace k m =
      countRecv st.trace k m + countPair [(dest, data)] k m := by
  rw [deliverSeen]
  split
  · rw [countRecv, countRecv, recvPairs_append, countPair_append]
    rfl
  · rw [countRecv, countRecv, recvPairs_append, countPair_append]
    rfl

theorem routeMsg_phi {A K M : Type} [DecidableEq K] [DecidableEq M]
    (impl : AutomatonImpl A K M) (rank : Nat) (work : K → Nat)
    (st : CoordState A K M) (dm : K × M) (k : K) (m : M) :
    phiCount (routeMsg impl rank work st dm) k m =
      phiCount st k m + countPair ([dm].filter (fun p => decide (work p.1 = rank))) k m := by
  obtain ⟨d0, x0⟩ := dm
  rw [routeMsg]
  by_cases hw : work (d0, x0).1 = rank
  · rw [if_pos hw]
    have hfil : [(d0, x0)].filter (fun p => decide (work p.1 = rank)) = [(d0, x0)] := by
      simp [List.filter, hw]
    rw [hfil]
    cases hl : lookupA st.seen (d0, x0).1 with
    | some a =>
      rw [phiCount, phiCount, deliverSeen_countRecv,
          (deliverSeen_boxes impl st (d0, x0).1 (d0, x0).2 a).1,
          (deliverSeen_boxes impl st (d0, x0).1 (d0, x0).2 a).2]
      dsimp only
      omega
    | none =>
      rw [phiCount, phiCount]
      dsimp only
      rw [countPair_pushUnd d0 x0 st.undelivered k m]
      omega
  · rw [if_neg hw]
    have hfil : [(d0, x0)].filter (fun p => decide (work p.1 = rank)) = [] := by
      simp [List.filter, hw]
    rw [hfil, phiCount, phiCount]
    dsimp only
    rw [countRecv, countRecv, recvPairs_append]
    have h0 : recvPairs [Event.send (work d0) d0 x0] = ([] : List (K × M)) := rfl
    rw [h0, List.append_nil]
    have hz : countPair ([] : List (K × M)) k m = 0 := rfl
    rw [hz]
    omega

theorem routeFold_phi {A K M : Type} [DecidableEq K] [DecidableEq M]
    (impl : AutomatonImpl A K M) (rank : Nat) (work : K → Nat) :
    ∀ (msgs : List (K × M)) (st : CoordState A K M) (k : K) (m : M),
      phiCount (msgs.foldl (routeMsg impl rank work) st) k m =
        phiCount st k m +
          countPair (msgs.filter (fun p => decide (work p.1 = rank))) k m := by
  intro msgs
  induction msgs with
  | nil => intro st k m; simp [countPair]
  | cons dm msgs ih =>
    intro st k m
    rw [List.foldl_cons, ih (routeMsg impl rank work st dm) k m,
        routeMsg_phi impl rank work st dm k m]
    by_cases hw : work dm.1 = rank
    · have h1 : (dm :: msgs).filter (fun p => decide (work p.1 = rank)) =
          dm :: msgs.filter (fun p => decide (work p.1 = rank)) := by
        simp [List.filter_cons, hw]
      have h2 : [dm].filter (fun p => decide (work p.1 = rank)) = [dm] := by
        simp [List.filter, hw]
      rw [h1, h2]
      have h3 : dm :: msgs.filter (fun p => decide (work p.1 = rank)) =
          [dm] ++ msgs.filter (fun p => decide (work p.1 = rank)) := rfl
      rw [h3, countPair_append]
      omega
    · have h1 : (dm :: msgs).filter (fun p => decide (work p.1 = rank)) =
          msgs.filter (fun p => decide (work p.1 = rank)) := by
        simp [List.filter_cons, hw]
      have h2 : [dm].filter (fun p => decide (work p.1 = rank)) = ([] : List (K × M)) := by
        simp [List.filter, hw]
      rw [h1, h2]
      have h3 : countPair ([] : List (K × M)) k m = 0 := rfl
      rw [h3]
      omega

theorem processTask_phi {A K M : Type} [DecidableEq K] [DecidableEq M]
    (impl : AutomatonImpl A K M) (rank : Nat) (work : K → Nat)
    (st : CoordState A K M) (a : A) (k : K) (m : M) :
    phiCount (processTask impl rank work st a) k m =
      phiCount st k m +
        countPair ((impl.messages a).filter (fun p => decide (work p.1 = rank))) k m := by
  rw [processTask]
  cases hre : removeEntry ((impl.messages a).foldl (routeMsg impl rank work) st).undelivered
      (impl.key a) with
  | none =>
    by_cases hind : impl.independent a = true
    · rw [if_pos hind]
      rw [← routeFold_phi impl rank work (impl.messages a) st k m]
      rw [phiCount, phiCount]
      dsimp only
      rw [countRecv, countRecv, recvPairs_append]
      have : recvPairs [Event.sink (impl.key a)] = ([] : List (K × M)) := rfl
      rw [this, List.append_nil]
    · rw [if_neg hind]
      rw [← routeFold_phi impl rank work (impl.messages a) st k m]
      rfl
  | some pr =>
    have hpart := deliverParked_partition impl pr.1 a
    have hcnt : countPair ((deliverParked impl a pr.1).delivered.map (Prod.mk (impl.key a)))
          k m +
        countPair ((deliverParked impl a pr.1).remaining.map (Prod.mk (impl.key a))) k m =
        countPair (pr.1.map (Prod.mk (impl.key a))) k m := by
      rw [← countPair_append, ← List.map_append, hpart]
    have hrem := countPair_removeEntry (impl.key a)
      ((impl.messages a).foldl (routeMsg impl rank work) st).undelivered pr.1 pr.2 k m
      (by rw [hre])
    have hfold := routeFold_phi impl rank work (impl.messages a) st k m
    rw [phiCount] at hfold
    dsimp only
    by_cases helig : ((deliverParked impl a pr.1).eligible
        || impl.independent (deliverParked impl a pr.1).task) = true
    · rw [if_pos helig]
      rw [phiCount]
      dsimp only
      rw [countRecv, recvPairs_append, recvPairs_append, countPair_append,
          countPair_append, recvPairs_map_recv, countPair_append]
      have : countPair (recvPairs [Event.sink (impl.key (deliverParked impl a pr.1).task)])
          k m = 0 := rfl
      rw [this]
      rw [countRecv] at hfold
      omega
    · rw [if_neg helig]
      rw [phiCount]
      dsimp only
      rw [countRecv, recvPairs_append, countPair_append, recvPairs_map_recv,
          countPair_append]
      rw [countRecv] at hfold
      omega

theorem flowFold_phi {A K M : Type} [DecidableEq K] [DecidableEq M]
    (impl : AutomatonImpl A K M) (rank : Nat) (work : K → Nat) :
    ∀ (flow : List A) (st : CoordState A K M) (k : K) (m : M),
      phiCount (flow.foldl (processTask impl rank work) st) k m =
        phiCount st k m + countPair (producedLocal impl rank work flow) k m := by
  intro flow
  induction flow with
  | nil => intro st k m; simp [producedLocal, countPair]
  | cons a flow ih =>
    intro st k m
    rw [List.foldl_cons, ih (processTask impl rank work st a) k m,
        processTask_phi impl rank work st a k m]
    have h1 : producedLocal impl rank work (a :: flow) =
        (impl.messages a).filter (fun p => decide (work p.1 = rank)) ++
          producedLocal impl rank work flow := by
      rw [producedLocal, producedLocal, List.flatMap_cons, List.filter_append]
    rw [h1, countPair_append]
    omega

theorem drain_count {A K M : Type} [DecidableEq K] [DecidableEq M]
    (impl : AutomatonImpl A K M) :
    ∀ (inc : List (K × M)) (st : CoordState A K M),
      (drain impl st inc).1 = .ok →
      ∃ used, inc = used ++ (drain impl st inc).2.2 ∧
        ∀ k m, countRecv (drain impl st inc).2.1.trace k m =
          countRecv st.trace k m + countPair used k m := by
  intro inc
  induction inc with
  | nil =>
    intro st _
    refine ⟨[], ?_, fun k m => ?_⟩
    · by_cases h : st.seen.isEmpty = true
      · rw [drain, if_pos h]
        rfl
      · rw [drain, if_neg h]
        rfl
    · have hz : countPair ([] : List (K × M)) k m = 0 := rfl
      by_cases h : st.seen.isEmpty = true
      · rw [drain, if_pos h, hz]
        dsimp only
        omega
      · rw [drain, if_neg h, hz]
        dsimp only
        omega
  | cons dm rest ih =>
    intro st hok
    obtain ⟨dest, data⟩ := dm
    by_cases h : st.seen.isEmpty = true
    · rw [drain, if_pos h] at hok ⊢
      refine ⟨[], rfl, fun k m => ?_⟩
      have hz : countPair ([] : List (K × M)) k m = 0 := rfl
      rw [hz]
      dsimp only
      omega
    · rw [drain, if_neg h] at hok ⊢
      cases hl : lookupA st.seen dest with
      | some a =>
        rw [hl] at hok
        obtain ⟨used1, hused1, hcnt1⟩ := ih (deliverSeen impl st dest data a) hok
        refine ⟨(dest, data) :: used1, by rw [List.cons_append, ← hused1], fun k m => ?_⟩
        rw [hcnt1 k m, deliverSeen_countRecv impl st dest data a k m]
        have hc : (dest, data) :: used1 = [(dest, data)] ++ used1 := rfl
        rw [hc, countPair_append]
        omega
      | none =>
        rw [hl] at hok
        exact absurd hok (by simp)

theorem sinkKeys_append {K M : Type} :
    ∀ (t u : List (Event K M)), sinkKeys (t ++ u) = sinkKeys t ++ sinkKeys u := by
  intro t u
  induction t with
  | nil => rfl
  | cons e t ih =>
    cases e with
    | recv k m => simp [sinkKeys, ih]
    | sink k => simp [sinkKeys, ih]
    | send r k m => simp [sinkKeys, ih]

theorem noLateRecv_append {K M : Type} [DecidableEq K] :
    ∀ (t u : List (Event K M)) (s : List K),
      noLateRecv s (t ++ u) = (noLateRecv s t && noLateRecv (s ++ sinkKeys t) u) := by
  intro t
  induction t with
  | nil =>
    intro u s
    simp [noLateRecv, sinkKeys]
  | cons e t ih =>
    intro u s
    cases e with
    | recv k m =>
      rw [List.cons_append, noLateRecv, noLateRecv, ih u s]
      simp [sinkKeys, Bool.and_assoc]
    | sink k =>
      rw [List.cons_append, noLateRecv, noLateRecv, ih u (s ++ [k])]
      simp [sinkKeys, List.append_assoc]
    | send r k m =>
      rw [List.cons_append, noLateRecv, noLateRecv, ih u s]
      simp [sinkKeys]

theorem noLateRecv_map_recv {K M : Type} [DecidableEq K] (k0 : K) :
    ∀ (l : List M) (s : List K), k0 ∉ s →
      noLateRecv s (l.map (Event.recv k0)) = true := by
  intro l
  induction l with
  | nil => intro s _; rfl
  | cons m l ih =>
    intro s hs
    rw [List.map_cons, noLateRecv, ih s hs]
    simp [hs]

theorem sinkKeys_map_recv {K M : Type} (k0 : K) :
    ∀ (l : List M), sinkKeys (l.map (Event.recv k0)) = ([] : List K) := by
  intro l
  induction l with
  | nil => rfl
  | cons m l ih => simp [sinkKeys, ih]

theorem lookupA_mem {K A : Type} [DecidableEq K] :
    ∀ (l : List (K × A)) (k : K) (a : A), lookupA l k = some a → k ∈ seenKeys l := by
  intro l
  induction l with
  | nil => intro k a h; cases h
  | cons e l ih =>
    intro k a h
    obtain ⟨k1, v⟩ := e
    rw [lookupA] at h
    by_cases hk : k1 = k
    · subst hk; simp [seenKeys]
    · rw [if_neg hk] at h
      simp [seenKeys]
      right
      have := ih k a h
      simpa [seenKeys] using this

theorem lookupA_none {K A : Type} [DecidableEq K] :
    ∀ (l : List (K × A)) (k : K), lookupA l k = none ↔ k ∉ seenKeys l := by
  intro l
  induction l with
  | nil => intro k; simp [lookupA, seenKeys]
  | cons e l ih =>
    intro k
    obtain ⟨k1, v⟩ := e
    rw [lookupA]
    by_cases hk : k1 = k
    · subst hk
      simp [seenKeys]
    · rw [if_neg hk]
      simp [seenKeys, hk, ih k]
      intro h
      exact fun hc => hk hc.symm

theorem removeA_perm {K A : Type} [DecidableEq K] :
    ∀ (l : List (K × A)) (k : K) (a : A), lookupA l k = some a →
      (seenKeys l).Perm (k :: seenKeys (removeA l k)) := by
  intro l
  induction l with
  | nil => intro k a h; cases h
  | cons e l ih =>
    intro k a h
    obtain ⟨k1, v⟩ := e
    rw [lookupA] at h
    rw [removeA]
    by_cases hk : k1 = k
    · subst hk
      rw [if_pos rfl]
      simp [seenKeys]
    · rw [if_neg hk] at h ⊢
      have h1 : (seenKeys l).Perm (k :: seenKeys (removeA l k)) := ih k a h
      have h2 := h1.cons k1
      have h3 := List.Perm.swap k k1 (seenKeys (removeA l k))
      exact h2.trans h3

theorem removeA_sublist {K A : Type} [DecidableEq K] :
    ∀ (l : List (K × A)) (k : K), (seenKeys (removeA l k)).Sublist (seenKeys l) := by
  intro l
  induction l with
  | nil => intro k; simp [removeA]
  | cons e l ih =>
    intro k
    obtain ⟨k1, v⟩ := e
    rw [removeA]
    by_cases hk : k1 = k
    · rw [if_pos hk]
      exact (List.sublist_cons_self _ _)
    · rw [if_neg hk]
      exact (ih k).cons₂ k1

theorem updateA_seenKeys {K A : Type} [DecidableEq K] :
    ∀ (l : List (K × A)) (k : K) (a : A), seenKeys (updateA l k a) = seenKeys l := by
  intro l
  induction l with
  | nil => intro k a; rfl
  | cons e l ih =>
    intro k a
    obtain ⟨k1, v⟩ := e
    rw [updateA]
    by_cases hk : k1 = k
    · rw [if_pos hk]
      rfl
    · rw [if_neg hk]
      show k1 :: seenKeys (updateA l k a) = k1 :: seenKeys l
      rw [ih k a]

theorem insertA_seenKeys {K A : Type} [DecidableEq K] :
    ∀ (l : List (K × A)) (k : K) (a : A), k ∉ seenKeys l →
      seenKeys (insertA l k a) = seenKeys l ++ [k] := by
  intro l
  induction l with
  | nil => intro k a _; rfl
  | cons e l ih =>
    intro k a hk
    obtain ⟨k1, v⟩ := e
    have hne : k1 ≠ k := by
      intro hc
      rw [hc] at hk
      exact hk (List.mem_cons_self _ _)
    rw [insertA, if_neg hne]
    have hk2 : k ∉ seenKeys l := by
      intro hc
      exact hk (List.mem_cons_of_mem _ hc)
    show k1 :: seenKeys (insertA l k a) = (k1 :: seenKeys l) ++ [k]
    rw [ih k a hk2, List.cons_append]

theorem deliverSeen_inv {A K M : Type} [DecidableEq K] (impl : AutomatonImpl A K M)
    (done : List K) (st : CoordState A K M) (dest : K) (data : M) (a : A)
    (hl : lookupA st.seen dest = some a) (inv : CoordInv done st) :
    CoordInv done (deliverSeen impl st dest data a) := by
  have hdmem : dest ∈ seenKeys st.seen := lookupA_mem st.seen dest a hl
  have hdns : dest ∉ sinkKeys st.trace := inv.notSunk dest hdmem
  have hperm := removeA_perm st.seen dest a hl
  rw [deliverSeen]
  split
  · have hsk : sinkKeys (st.trace ++ [Event.recv dest data, Event.sink dest]) =
        sinkKeys st.trace ++ [dest] := by
      rw [sinkKeys_append]
      rfl
    have hdnr : dest ∉ seenKeys (removeA st.seen dest) := by
      have hnd : (dest :: seenKeys (removeA st.seen dest)).Nodup :=
        (hperm.nodup_iff.mp inv.nodupSeen)
      exact (List.nodup_cons.mp hnd).1
    refine ⟨?_, ?_, ?_, ?_⟩
    · rw [noLateRecv_append, inv.nlr, Bool.true_and]
      show noLateRecv (sinkKeys st.trace) [Event.recv dest data, Event.sink dest] = true
      rw [noLateRecv, noLateRecv]
      simp [hdns, noLateRecv]
    · exact (removeA_sublist st.seen dest).nodup inv.nodupSeen
    · show ((sinkKeys (st.trace ++ [Event.recv dest data, Event.sink dest])) ++
        seenKeys (removeA st.seen dest)).Perm done
      rw [hsk, List.append_assoc]
      have h1 : ([dest] ++ seenKeys (removeA st.seen dest)) =
          dest :: seenKeys (removeA st.seen dest) := rfl
      rw [h1]
      exact ((hperm.symm.append_left (sinkKeys st.trace)).trans inv.perm)
    · intro k hk
      rw [hsk]
      have hk1 : k ∈ seenKeys st.seen := (removeA_sublist st.seen dest).subset hk
      have hk2 : k ∉ sinkKeys st.trace := inv.notSunk k hk1
      have hk3 : k ≠ dest := by
        intro hc
        rw [hc] at hk
        exact hdnr hk
      simp [hk2, hk3]
  · have hsk : sinkKeys (st.trace ++ [Event.recv dest data]) = sinkKeys st.trace := by
      rw [sinkKeys_append]
      simp [sinkKeys]
    refine ⟨?_, ?_, ?_, ?_⟩
    · rw [noLateRecv_append, inv.nlr, Bool.true_and]
      show noLateRecv (sinkKeys st.trace) [Event.recv dest data] = true
      rw [noLateRecv]
      simp [hdns, noLateRecv]
    · rw [updateA_seenKeys]
      exact inv.nodupSeen
    · show ((sinkKeys (st.trace ++ [Event.recv dest data])) ++
        seenKeys (updateA st.seen dest (impl.receive a data).1)).Perm done
      rw [hsk, updateA_seenKeys]
      exact inv.perm
    · intro k hk
      rw [hsk]
      rw [updateA_seenKeys] at hk
      exact inv.notSunk k hk

theorem routeMsg_inv {A K M : Type} [DecidableEq K] (impl : AutomatonImpl A K M)
    (rank : Nat) (work : K → Nat) (done : List K) (st : CoordState A K M)
    (dm : K × M) (inv : CoordInv done st) :
    CoordInv done (routeMsg impl rank work st dm) := by
  obtain ⟨d0, x0⟩ := dm
  rw [routeMsg]
  by_cases hw : work (d0, x0).1 = rank
  · rw [if_pos hw]
    cases hl : lookupA st.seen (d0, x0).1 with
    | some a => exact deliverSeen_inv impl done st _ _ a hl inv
    | none => exact ⟨inv.nlr, inv.nodupSeen, inv.perm, inv.notSunk⟩
  · rw [if_neg hw]
    have hsk : sinkKeys (st.trace ++ [Event.send (work (d0, x0).1) (d0, x0).1 (d0, x0).2]) =
        sinkKeys st.trace := by
      rw [sinkKeys_append]
      simp [sinkKeys]
    refine ⟨?_, inv.nodupSeen, ?_, ?_⟩
    · rw [noLateRecv_append, inv.nlr, Bool.true_and]
      rfl
    · show (sinkKeys (st.trace ++ [Event.send (work (d0, x0).1) (d0, x0).1 (d0, x0).2]) ++
        seenKeys st.seen).Perm done
      rw [hsk]
      exact inv.perm
    · intro k hk
      rw [hsk]
      exact inv.notSunk k hk

theorem routeFold_inv {A K M : Type} [DecidableEq K] (impl : AutomatonImpl A K M)
    (rank : Nat) (work : K → Nat) (done : List K) :
    ∀ (msgs : List (K × M)) (st : CoordState A K M), CoordInv done st →
      CoordInv done (msgs.foldl (routeMsg impl rank work) st) := by
  intro msgs
  induction msgs with
  | nil => intro st inv; exact inv
  | cons dm msgs ih =>
    intro st inv
    rw [List.foldl_cons]
    exact ih (routeMsg impl rank work st dm) (routeMsg_inv impl rank work done st dm inv)

theorem deliverParked_key {A K M : Type} (impl : AutomatonImpl A K M)
    (hkey : ∀ (a : A) (m : M), impl.key (impl.receive a m).1 = impl.key a) :
    ∀ (ms : List M) (a : A), impl.key (deliverParked impl a ms).task = impl.key a := by
  intro ms
  induction ms with
  | nil => intro a; rfl
  | cons m ms ih =>
    intro a
    rw [deliverParked]
    by_cases h : (impl.receive a m).2 = true
    · rw [if_pos h]
      exact hkey a m
    · rw [if_neg h]
      show impl.key (deliverParked impl (impl.receive a m).1 ms).task = impl.key a
      rw [ih (impl.receive a m).1, hkey a m]

theorem perm_append_middle {K : Type} (x y : List K) (k : K) :
    ((x ++ [k]) ++ y).Perm ((x ++ y) ++ [k]) := by
  rw [List.append_assoc, List.append_assoc]
  exact List.Perm.append_left x (List.perm_append_comm)

theorem nodup_snoc {K : Type} (l : List K) (k : K) (h1 : l.Nodup) (h2 : k ∉ l) :
    (l ++ [k]).Nodup := by
  refine List.Nodup.append h1 (List.nodup_singleton k) ?_
  intro x hx hx2
  rw [List.mem_singleton] at hx2
  subst hx2
  exact h2 hx

theorem processTask_inv {A K M : Type} [DecidableEq K] (impl : AutomatonImpl A K M)
    (rank : Nat) (work : K → Nat)
    (hkey : ∀ (a : A) (m : M), impl.key (impl.receive a m).1 = impl.key a)
    (done : List K) (st : CoordState A K M) (a : A)
    (inv : CoordInv done st) (hfresh : impl.key a ∉ done) :
    CoordInv (done ++ [impl.key a]) (processTask impl rank work st a) := by
  have inv1 : CoordInv done ((impl.messages a).foldl (routeMsg impl rank work) st) :=
    routeFold_inv impl rank work done (impl.messages a) st inv
  set st1 := (impl.messages a).foldl (routeMsg impl rank work) st with hst1
  have hf1 : impl.key a ∉ sinkKeys st1.trace := by
    intro hc
    exact hfresh (inv1.perm.mem_iff.mp (List.mem_append_left _ hc))
  have hf2 : impl.key a ∉ seenKeys st1.seen := by
    intro hc
    exact hfresh (inv1.perm.mem_iff.mp (List.mem_append_right _ hc))
  rw [processTask, ← hst1]
  cases hre : removeEntry st1.undelivered (impl.key a) with
  | none =>
    by_cases hind : impl.independent a = true
    · rw [if_pos hind]
      have hsk : sinkKeys (st1.trace ++ [Event.sink (impl.key a)]) =
          sinkKeys st1.trace ++ [impl.key a] := by
        rw [sinkKeys_append]
        rfl
      refine ⟨?_, inv1.nodupSeen, ?_, ?_⟩
      · rw [noLateRecv_append, inv1.nlr, Bool.true_and]
        rfl
      · show (sinkKeys (st1.trace ++ [Event.sink (impl.key a)]) ++
          seenKeys st1.seen).Perm (done ++ [impl.key a])
        rw [hsk]
        exact (perm_append_middle _ _ _).trans (inv1.perm.append_right _)
      · intro k hk
        rw [hsk]
        have h1 : k ∉ sinkKeys st1.trace := inv1.notSunk k hk
        have h2 : k ≠ impl.key a := fun hc => hf2 (hc ▸ hk)
        simp [h1, h2]
    · rw [if_neg hind]
      have hseen : seenKeys (insertA st1.seen (impl.key a) a) =
          seenKeys st1.seen ++ [impl.key a] :=
        insertA_seenKeys st1.seen (impl.key a) a hf2
      refine ⟨inv1.nlr, ?_, ?_, ?_⟩
      · rw [hseen]
        exact nodup_snoc _ _ inv1.nodupSeen hf2
      · show (sinkKeys st1.trace ++
          seenKeys (insertA st1.seen (impl.key a) a)).Perm (done ++ [impl.key a])
        rw [hseen, ← List.append_assoc]
        exact inv1.perm.append_right _
      · intro k hk
        rw [hseen] at hk
        rcases List.mem_append.mp hk with hk1 | hk1
        · exact inv1.notSunk k hk1
        · rw [List.mem_singleton] at hk1
          subst hk1
          exact hf1
  | some pr =>
    dsimp only
    have hkp : impl.key (deliverParked impl a pr.1).task = impl.key a :=
      deliverParked_key impl hkey pr.1 a
    have htr : sinkKeys (st1.trace ++
        (deliverParked impl a pr.1).delivered.map (Event.recv (impl.key a))) =
        sinkKeys st1.trace := by
      rw [sinkKeys_append, sinkKeys_map_recv, List.append_nil]
    have hnlr2 : noLateRecv [] (st1.trace ++
        (deliverParked impl a pr.1).delivered.map (Event.recv (impl.key a))) = true := by
      rw [noLateRecv_append, inv1.nlr, Bool.true_and]
      exact noLateRecv_map_recv (impl.key a) _ _ (by simpa using hf1)
    by_cases helig : ((deliverParked impl a pr.1).eligible
        || impl.independent (deliverParked impl a pr.1).task) = true
    · rw [if_pos helig]
      have hsk : sinkKeys ((st1.trace ++
          (deliverParked impl a pr.1).delivered.map (Event.recv (impl.key a))) ++
          [Event.sink (impl.key (deliverParked impl a pr.1).task)]) =
          sinkKeys st1.trace ++ [impl.key a] := by
        rw [sinkKeys_append, htr, hkp]
        rfl
      refine ⟨?_, inv1.nodupSeen, ?_, ?_⟩
      · rw [noLateRecv_append, hnlr2, Bool.true_and]
        rfl
      · show (sinkKeys ((st1.trace ++
          (deliverParked impl a pr.1).delivered.map (Event.recv (impl.key a))) ++
          [Event.sink (impl.key (deliverParked impl a pr.1).task)]) ++
          seenKeys st1.seen).Perm (done ++ [impl.key a])
        rw [hsk]
        exact (perm_append_middle _ _ _).trans (inv1.perm.append_right _)
      · intro k hk
        rw [hsk]
        have h1 : k ∉ sinkKeys st1.trace := inv1.notSunk k hk
        have h2 : k ≠ impl.key a := fun hc => hf2 (hc ▸ hk)
        simp [h1, h2]
    · rw [if_neg helig]
      have hseen : seenKeys (insertA st1.seen
          (impl.key (deliverParked impl a pr.1).task) (deliverParked impl a pr.1).task) =
          seenKeys st1.seen ++ [impl.key a] := by
        rw [hkp]
        exact insertA_seenKeys st1.seen (impl.key a) _ hf2
      refine ⟨hnlr2, ?_, ?_, ?_⟩
      · rw [hseen]
        exact nodup_snoc _ _ inv1.nodupSeen hf2
      · show (sinkKeys (st1.trace ++
          (deliverParked impl a pr.1).delivered.map (Event.recv (impl.key a))) ++
          seenKeys (insertA st1.seen
            (impl.key (deliverParked impl a pr.1).task) (deliverParked impl a pr.1).task)).Perm
          (done ++ [impl.key a])
        rw [htr, hseen, ← List.append_assoc]
        exact inv1.perm.append_right _
      · intro k hk
        rw [htr]
        rw [hseen] at hk
        rcases List.mem_append.mp hk with hk1 | hk1
        · exact inv1.notSunk k hk1
        · rw [List.mem_singleton] at hk1
          subst hk1
          exact hf1

theorem flowFold_inv {A K M : Type} [DecidableEq K] (impl : AutomatonImpl A K M)
    (rank : Nat) (work : K → Nat)
    (hkey : ∀ (a : A) (m : M), impl.key (impl.receive a m).1 = impl.key a) :
    ∀ (flow : List A) (done : List K) (st : CoordState A K M),
      CoordInv done st → (done ++ flow.map impl.key).Nodup →
      CoordInv (done ++ flow.map impl.key) (flow.foldl (processTask impl rank work) st) := by
  intro flow
  induction flow with
  | nil =>
    intro done st inv _
    simpa using inv
  | cons a flow ih =>
    intro done st inv hnodup
    rw [List.foldl_cons]
    have hfresh : impl.key a ∉ done := by
      intro hc
      have hd := List.disjoint_of_nodup_append hnodup
      exact hd hc (by simp)
    have inv1 := processTask_inv impl rank work hkey done st a inv hfresh
    have hn2 : ((done ++ [impl.key a]) ++ flow.map impl.key).Nodup := by
      rw [List.append_assoc]
      simpa using hnodup
    have h2 := ih (done ++ [impl.key a]) (processTask impl rank work st a) inv1 hn2
    rw [List.append_assoc] at h2
    simpa using h2

theorem drain_inv {A K M : Type} [DecidableEq K] (impl : AutomatonImpl A K M)
    (done : List K) :
    ∀ (inc : List (K × M)) (st : CoordState A K M), CoordInv done st →
      CoordInv done (drain impl st inc).2.1 := by
  intro inc
  induction inc with
  | nil =>
    intro st inv
    by_cases h : st.seen.isEmpty = true
    · rw [drain, if_pos h]; exact inv
    · rw [drain, if_neg h]; exact inv
  | cons dm rest ih =>
    intro st inv
    obtain ⟨dest, data⟩ := dm
    by_cases h : st.seen.isEmpty = true
    · rw [drain, if_pos h]; exact inv
    · rw [drain, if_neg h]
      cases hl : lookupA st.seen dest with
      | some a => exact ih _ (deliverSeen_inv impl done st dest data a hl inv)
      | none => exact inv

/-- Claim C1, amended.  For a stage that terminates normally (outcome
`ok`), over a flow with pairwise distinct task keys and key-stable
`receive`:
(1) no receive event follows the sink event of its key, so every
`receive(msg)` call on a task happens before that task is passed to the
sink and hence before `value()`;
(2) the keys handed to the sink are exactly the flow keys, each exactly
once;
(3) counting at every pair `(k, m)`: the receive calls plus the messages
dropped by the short-circuiting parked delivery equal the
locally-addressed messages produced by `messages()` plus the consumed
incoming remote messages.  In particular each such message is received at
most once, and exactly once when nothing is dropped — the claimed
unconditional exactly-once delivery fails (see the counterexample). -/
theorem coordinate_delivery {A K M : Type} [DecidableEq K] [DecidableEq M]
    (impl : AutomatonImpl A K M) (rank : Nat) (work : K → Nat)
    (flow : List A) (incoming : List (K × M))
    (hkey : ∀ (a : A) (m : M), impl.key (impl.receive a m).1 = impl.key a)
    (hnodup : (flow.map impl.key).Nodup)
    (hok : (coordinate impl rank work flow incoming).1 = .ok) :
    noLateRecv [] (coordinate impl rank work flow incoming).2.1.trace = true ∧
    (sinkKeys (coordinate impl rank work flow incoming).2.1.trace).Perm
      (flow.map impl.key) ∧
    ∃ used, incoming = used ++ (coordinate impl rank work flow incoming).2.2 ∧
      ∀ k m,
        countRecv (coordinate impl rank work flow incoming).2.1.trace k m +
          countPair (coordinate impl rank work flow incoming).2.1.dropped k m =
        countPair (producedLocal impl rank work flow) k m + countPair used k m := by
  have inv0 : CoordInv ([] : List K) (⟨[], [], [], []⟩ : CoordState A K M) :=
    ⟨rfl, List.nodup_nil, List.Perm.refl _, by intro k hk; cases hk⟩
  have invF := flowFold_inv impl rank work hkey flow [] ⟨[], [], [], []⟩ inv0
    (by simpa using hnodup)
  rw [List.nil_append] at invF
  set st0 := flow.foldl (processTask impl rank work) (⟨[], [], [], []⟩ : CoordState A K M)
    with hst0
  have hphi0 := flowFold_phi impl rank work flow ⟨[], [], [], []⟩
  rw [coordinate] at hok ⊢
  rw [← hst0] at hok ⊢
  by_cases hgate : st0.undelivered.isEmpty = true
  · rw [if_pos hgate] at hok ⊢
    have hundnil : st0.undelivered = [] := List.isEmpty_iff.mp hgate
    have invD := drain_inv impl (flow.map impl.key) incoming st0 invF
    have hboxes := drain_keeps_boxes impl incoming st0
    have hseen : (drain impl st0 incoming).2.1.seen = [] := hboxes.2.2 hok
    obtain ⟨used, husedeq, hcnt⟩ := drain_count impl incoming st0 hok
    refine ⟨invD.nlr, ?_, used, husedeq, ?_⟩
    · have hp := invD.perm
      rw [hseen] at hp
      simpa [seenKeys] using hp
    · intro k m
      have h1 := hphi0 k m
      rw [← hst0, phiCount, phiCount, hundnil] at h1
      dsimp only at h1
      have h2 : countPair (undFlat ([] : List (K × List M))) k m = 0 := rfl
      have h3 : countRecv ([] : List (Event K M)) k m = 0 := rfl
      have h5 : countPair ([] : List (K × M)) k m = 0 := rfl
      rw [h2, h3, h5] at h1
      have h6 := hcnt k m
      have h7 := hboxes.2.1
      rw [h7]
      omega
  · rw [if_neg hgate] at hok
    exact absurd hok (by simp)

theorem coordinate_delivery_witness :
    noLateRecv [] (coordinate implTwoToOne 0 (fun _ => 0) [1, 0] []).2.1.trace = true ∧
    (sinkKeys (coordinate implTwoToOne 0 (fun _ => 0) [1, 0] []).2.1.trace).Perm
      ([1, 0].map implTwoToOne.key) ∧
    ∃ used, ([] : List (Nat × Nat)) = used ++
        (coordinate implTwoToOne 0 (fun _ => 0) [1, 0] []).2.2 ∧
      ∀ k m,
        countRecv (coordinate implTwoToOne 0 (fun _ => 0) [1, 0] []).2.1.trace k m +
          countPair (coordinate implTwoToOne 0 (fun _ => 0) [1, 0] []).2.1.dropped k m =
        countPair (producedLocal implTwoToOne 0 (fun _ => 0) [1, 0]) k m +
          countPair used k m :=
  coordinate_delivery implTwoToOne 0 (fun _ => 0) [1, 0] []
    (fun _ _ => rfl) (by decide) (by decide)

end Gridiron
